import Mathlib

/-!
Verification of `setup.py` of the `indigo-stubs` repository.

The script defines a single function

    def list_packages(src_path=""):
        for root, _, _ in os.walk(os.path.join(src_path, "indigo-stubs")):
            yield ".".join(os.path.relpath(root, src_path).split(os.path.sep))

and then calls `setuptools.setup` with fixed literal metadata plus
`packages=list(list_packages())` and `package_data={"": ["*.pyi"]}`.

We embed the filesystem as a finite rose tree of directories (files play no
role in `list_packages`), the POSIX path primitives `os.path.join`,
`os.path.relpath`, `str.split` and `str.join` as executable functions on
`String`, and `os.walk` as the top-down list of visited root paths.
-/

namespace SetupPy

/-- A directory of the filesystem: its entry name and its subdirectories.
Plain files are irrelevant to `os.walk` as consumed by `list_packages`
(only the `root` component of each triple is used). -/
inductive Dir where
  | mk (name : String) (children : List Dir)

/-- Entry name of a directory. -/
def Dir.name : Dir → String
  | .mk n _ => n

/-- Subdirectories of a directory. -/
def Dir.children : Dir → List Dir
  | .mk _ cs => cs

/-- The platform path separator character (`os.path.sep`, POSIX). -/
def sepC : Char := '/'

/-- The platform path separator as a one-character string. -/
def sepS : String := "/"

/-- Prepends a character onto the first part of a split result. -/
def consHead (x : Char) : List (List Char) → List (List Char)
  | [] => [[x]]
  | r :: rs => (x :: r) :: rs

/-- Python `str.split` with a one-character separator, on character lists:
splits at every occurrence of `c`, keeping empty parts.  The result is
always nonempty. -/
def splitChar (c : Char) : List Char → List (List Char)
  | [] => [[]]
  | x :: xs =>
    if x = c then [] :: splitChar c xs else consHead x (splitChar c xs)

/-- Python `sep.join` on character lists: interleaves `j` between the parts. -/
def joinWith (j : List Char) : List (List Char) → List Char
  | [] => []
  | [x] => x
  | x :: y :: xs => x ++ j ++ joinWith j (y :: xs)

/-- Python `s.split(c)` for a one-character separator, on `String`. -/
def pySplit (c : Char) (s : String) : List String :=
  (splitChar c s.data).map String.mk

/-- Python `j.join(parts)` on `String`. -/
def strJoin (j : String) : List String → String
  | [] => ""
  | [x] => x
  | x :: y :: xs => x ++ j ++ strJoin j (y :: xs)

/-- Whether a path string begins with the separator (is absolute). -/
def startsWithSep (s : String) : Bool :=
  match s.data with
  | [] => false
  | c :: _ => c = sepC

/-- Whether a path string ends with the separator. -/
def endsWithSep (s : String) : Bool :=
  match s.data.getLast? with
  | some c => c = sepC
  | none => false

/-- The POSIX `os.path.join(a, b)` for two operands: an absolute second
operand replaces the first; otherwise the separator is inserted unless the
first operand is empty or already ends with the separator. -/
def pathJoin (a b : String) : String :=
  if startsWithSep b then b
  else if a = "" ∨ endsWithSep a then a ++ b
  else a ++ sepS ++ b

/-- Normalized path components of a relative path, as used by
`os.path.relpath`: split on the separator, then drop empty components and
`"."` components (which `abspath` normalization removes).  Modelled for
paths that are resolved against one common working directory and contain no
`".."` step, so that the working-directory prefix cancels out of the
relative-path computation. -/
def comps (s : String) : List String :=
  (pySplit sepC s).filter (fun x => x != "" && x != ".")

/-- Length of the longest common prefix of two component lists
(`os.path.commonprefix` on lists). -/
def commonPrefixLen : List String → List String → Nat
  | a :: as, b :: bs => if a = b then commonPrefixLen as bs + 1 else 0
  | _, _ => 0

/-- The POSIX `os.path.relpath(path, start)` for paths resolved against one
common working directory: drop the common component prefix, step up with
`".."` for each remaining `start` component, and rejoin with the
separator (`"."` when nothing remains). -/
def relpath (path start : String) : String :=
  let ss := comps start
  let ps := comps path
  let i := commonPrefixLen ss ps
  match List.replicate (ss.length - i) ".." ++ ps.drop i with
  | [] => "."
  | rel => strJoin sepS rel

/-- The transformation `list_packages` applies to each visited root path:
`".".join(os.path.relpath(root, src_path).split(os.path.sep))`. -/
def pkgName (src_path root : String) : String :=
  strJoin "." (pySplit sepC (relpath root src_path))

/-- Root paths visited by `os.walk` strictly below a directory at path
`top` whose subdirectories are the given list, in top-down order: each
subdirectory is visited before its own descendants, siblings in list
order. -/
def walkList (top : String) : List Dir → List String
  | [] => []
  | Dir.mk n cs :: ds =>
    (pathJoin top n :: walkList (pathJoin top n) cs) ++ walkList top ds

/-- Every root path yielded by `os.walk(top)` when `top` exists and its
subdirectory tree is `cs`: the top directory itself first, then its
descendants top-down. -/
def walkRoots (top : String) (cs : List Dir) : List String :=
  top :: walkList top cs

/-- Root paths visited during a run of `list_packages(src_path)`: the
walk starts at `os.path.join(src_path, "indigo-stubs")`; `fs` is that
directory (`none` when it does not exist, in which case `os.walk` yields
nothing). -/
def visited (src_path : String) (fs : Option (List Dir)) : List String :=
  match fs with
  | none => []
  | some cs => walkRoots (pathJoin src_path "indigo-stubs") cs

/-- The function `list_packages` of `setup.py`, evaluated eagerly (the
script immediately wraps the generator in `list(...)`). -/
def list_packages (src_path : String) (fs : Option (List Dir)) : List String :=
  (visited src_path fs).map (pkgName src_path)

/-- Behaviour of `list_packages` when the underlying `os.walk` primitive
itself fails: the generator body installs no handler, so the outcome of the
iteration is passed through unchanged — an `ok` list of roots is mapped,
an `error` propagates as-is. -/
def list_packagesExc {ε : Type} (src_path : String)
    (walkOutcome : Except ε (List String)) : Except ε (List String) :=
  match walkOutcome with
  | .error e => .error e
  | .ok roots => .ok (roots.map (pkgName src_path))

/-- Number of directories in a directory forest, all depths included. -/
def countDirs : List Dir → Nat
  | [] => 0
  | Dir.mk _ cs :: ds => 1 + countDirs cs + countDirs ds

/-- Every directory name in the forest is free of the separator character.
This holds of every tree a real filesystem walk can report, since an entry
name never contains the path separator. -/
def sepFreeDirs : List Dir → Bool
  | [] => true
  | Dir.mk n cs :: ds =>
    !n.data.contains sepC && sepFreeDirs cs && sepFreeDirs ds

/-- Every directory name in the forest is a plain component: nonempty, free
of the separator character, and free of the character `.`. -/
def plainDirs : List Dir → Bool
  | [] => true
  | Dir.mk n cs :: ds =>
    (n != "" && !n.data.contains sepC && !n.data.contains '.')
      && plainDirs cs && plainDirs ds

/-- Relative addresses (name chains) of every directory of a forest, in the
top-down order of the walk. -/
def addrs : List Dir → List (List String)
  | [] => []
  | Dir.mk n cs :: ds =>
    [n] :: ((addrs cs).map (n :: ·) ++ addrs ds)

/-- The keyword arguments of the `setuptools.setup` call at the bottom of
`setup.py`. -/
structure SetupArgs where
  name : String
  version : String
  url : String
  author : String
  author_email : String
  description : String
  install_requires : List String
  packages : List String
  package_data : List (String × List String)

/-- The `setup(...)` call of `setup.py`: every metadata field is a fixed
literal; only `packages` is computed, as `list(list_packages())` with the
default `src_path=""`.  In `package_data`, the key `""` is the setuptools
convention for "every package". -/
def setupCall (fs : Option (List Dir)) : SetupArgs where
  name := "indigo-stubs"
  version := "3.0.0"
  url := "https://github.com/mypackage.git"
  author := "Author Name"
  author_email := "author@gmail.com"
  description := "Description of my package"
  install_requires := []
  packages := list_packages "" fs
  package_data := [("", ["*.pyi"])]

/-! Low-level facts about the split and join primitives. -/

theorem consHead_ne_nil (x : Char) (l : List (List Char)) : consHead x l ≠ [] := by
  cases l <;> simp [consHead]

theorem consHead_cons (x : Char) (r : List Char) (rs : List (List Char)) :
    consHead x (r :: rs) = (x :: r) :: rs := rfl

theorem consHead_append (x : Char) (A B : List (List Char)) (hA : A ≠ []) :
    consHead x (A ++ B) = consHead x A ++ B := by
  cases A with
  | nil => exact absurd rfl hA
  | cons r rs => simp [consHead]

theorem splitChar_ne_nil (c : Char) (xs : List Char) : splitChar c xs ≠ [] := by
  cases xs with
  | nil => simp [splitChar]
  | cons x xs =>
    simp only [splitChar]
    split
    · simp
    · exact consHead_ne_nil x (splitChar c xs)

theorem splitChar_sep (c : Char) :
    ∀ xs ys, splitChar c (xs ++ c :: ys) = splitChar c xs ++ splitChar c ys
  | [], ys => by simp [splitChar]
  | x :: xs, ys => by
    have ih := splitChar_sep c xs ys
    by_cases hx : x = c
    · simp [splitChar, hx, ih]
    · simp only [List.cons_append, List.append_eq, splitChar, if_neg hx, ih]
      exact consHead_append x (splitChar c xs) (splitChar c ys) (splitChar_ne_nil c xs)

theorem splitChar_eq_of_not_mem (c : Char) : ∀ xs, c ∉ xs → splitChar c xs = [xs]
  | [], _ => rfl
  | x :: xs, h => by
    have hx : ¬x = c := fun e => h (e ▸ List.mem_cons_self x xs)
    have ih := splitChar_eq_of_not_mem c xs (fun m => h (List.mem_cons_of_mem x m))
    simp [splitChar, ih, hx, consHead]

theorem not_mem_of_mem_splitChar (c : Char) : ∀ xs p, p ∈ splitChar c xs → c ∉ p
  | [], p, hp => by
    simp [splitChar] at hp; subst hp; simp
  | x :: xs, p, hp => by
    have ih := not_mem_of_mem_splitChar c xs
    revert hp
    simp only [splitChar]
    by_cases hx : x = c
    · rw [if_pos hx]
      intro hp
      rcases List.mem_cons.mp hp with hp | hp
      · subst hp; simp
      · exact ih p hp
    · rw [if_neg hx]
      cases h : splitChar c xs with
      | nil => exact absurd h (splitChar_ne_nil c xs)
      | cons r rs =>
        have hr : c ∉ r := ih r (h ▸ List.mem_cons_self r rs)
        rw [consHead_cons]
        intro hp
        rcases List.mem_cons.mp hp with hp | hp
        · subst hp
          intro hm
          rcases List.mem_cons.mp hm with he | hm2
          · exact hx he.symm
          · exact hr hm2
        · exact ih p (h ▸ List.mem_cons_of_mem r hp)

theorem joinWith_splitChar (c : Char) : ∀ xs, joinWith [c] (splitChar c xs) = xs
  | [] => rfl
  | x :: xs => by
    have ih := joinWith_splitChar c xs
    simp only [splitChar]
    by_cases hx : x = c
    · rw [if_pos hx]
      cases h : splitChar c xs with
      | nil => exact absurd h (splitChar_ne_nil c xs)
      | cons r rs =>
        rw [h] at ih
        show [] ++ [c] ++ joinWith [c] (r :: rs) = x :: xs
        simp [ih, hx]
    · rw [if_neg hx]
      cases h : splitChar c xs with
      | nil => exact absurd h (splitChar_ne_nil c xs)
      | cons r rs =>
        rw [h] at ih
        rw [consHead_cons]
        cases rs with
        | nil =>
          simp only [joinWith] at ih ⊢
          simp [ih]
        | cons s ss =>
          simp only [joinWith] at ih ⊢
          simp [← ih]

theorem splitChar_joinWith (c : Char) : ∀ pl, pl ≠ [] → (∀ p ∈ pl, c ∉ p) →
    splitChar c (joinWith [c] pl) = pl
  | [], h, _ => absurd rfl h
  | [x], _, hf => by
    simp only [joinWith]
    exact splitChar_eq_of_not_mem c x (hf x (by simp))
  | x :: y :: t, _, hf => by
    have ih := splitChar_joinWith c (y :: t) (by simp)
      (fun p hp => hf p (List.mem_cons_of_mem x hp))
    have hx : c ∉ x := hf x (by simp)
    show splitChar c (x ++ [c] ++ joinWith [c] (y :: t)) = x :: y :: t
    rw [List.append_assoc, List.singleton_append, splitChar_sep,
      splitChar_eq_of_not_mem c x hx, ih, List.singleton_append]

theorem not_mem_joinWith (c j : Char) : ∀ pl, c ≠ j → (∀ p ∈ pl, c ∉ p) →
    c ∉ joinWith [j] pl
  | [], _, _ => by simp [joinWith]
  | [x], _, hf => by
    simp only [joinWith]
    exact hf x (by simp)
  | x :: y :: t, hcj, hf => by
    have ih := not_mem_joinWith c j (y :: t) hcj
      (fun p hp => hf p (List.mem_cons_of_mem x hp))
    have hx := hf x (by simp)
    simp only [joinWith]
    intro hm
    rw [List.append_assoc] at hm
    rcases List.mem_append.mp hm with hm | hm
    · exact hx hm
    · rcases List.mem_append.mp hm with hm | hm
      · exact hcj (List.mem_singleton.mp hm)
      · exact ih hm

/-! Facts lifting the char-level primitives to `String`. -/

theorem strExt {a b : String} (h : a.data = b.data) : a = b := by
  cases a; cases b; simp only at h; rw [h]

theorem strJoin_data (j : String) :
    ∀ l, (strJoin j l).data = joinWith j.data (l.map String.data)
  | [] => rfl
  | [x] => rfl
  | x :: y :: t => by
    have ih := strJoin_data j (y :: t)
    show (x ++ j ++ strJoin j (y :: t)).data
      = x.data ++ j.data ++ joinWith j.data (y.data :: t.map String.data)
    rw [String.data_append, String.data_append, ih]
    rfl

theorem pySplit_strJoin (parts : List String) (hne : parts ≠ [])
    (hf : ∀ x ∈ parts, sepC ∉ x.data) :
    pySplit sepC (strJoin sepS parts) = parts := by
  unfold pySplit
  rw [strJoin_data]
  rw [show sepS.data = [sepC] from rfl]
  rw [splitChar_joinWith sepC (parts.map String.data) (by simpa using hne)
    (by intro p hp; rcases List.mem_map.mp hp with ⟨x, hx, he⟩; exact he ▸ hf x hx)]
  rw [List.map_map]
  have hid : (String.mk ∘ String.data) = id := funext fun x => rfl
  rw [hid, List.map_id]

theorem comps_eq (s : String) :
    comps s = ((splitChar sepC s.data).map String.mk).filter
      (fun x => x != "" && x != ".") := rfl

theorem comps_single (b : String) (h1 : b ≠ "") (h2 : b ≠ ".") (h3 : sepC ∉ b.data) :
    comps b = [b] := by
  rw [comps_eq, splitChar_eq_of_not_mem sepC b.data h3]
  simp [h1, h2]

theorem comps_sep_free (s x : String) (hx : x ∈ comps s) : sepC ∉ x.data := by
  rw [comps_eq] at hx
  have hx2 := List.mem_of_mem_filter hx
  rcases List.mem_map.mp hx2 with ⟨p, hp, he⟩
  subst he
  exact not_mem_of_mem_splitChar sepC s.data p hp

theorem exists_concat_of_getLast? {α : Type} :
    ∀ (l : List α) (c : α), l.getLast? = some c → ∃ xs, l = xs ++ [c]
  | [], c, h => by simp at h
  | [a], c, h => by
    simp [List.getLast?] at h
    exact ⟨[], by simp [h]⟩
  | a :: b :: t, c, h => by
    rcases exists_concat_of_getLast? (b :: t) c (by simpa [List.getLast?_cons_cons] using h)
      with ⟨xs, hxs⟩
    exact ⟨a :: xs, by rw [List.cons_append, ← hxs]⟩

theorem comps_pathJoin (a b : String) (hb : startsWithSep b = false) :
    comps (pathJoin a b) = comps a ++ comps b := by
  unfold pathJoin
  rw [if_neg (by simp [hb])]
  by_cases he : a = "" ∨ endsWithSep a
  · rw [if_pos he]
    rcases he with he | he
    · subst he
      have h0 : (("" : String) ++ b) = b := strExt (by rw [String.data_append]; rfl)
      rw [h0]
      rfl
    · unfold endsWithSep at he
      rcases hg : a.data.getLast? with _ | c
      · rw [hg] at he; simp at he
      · rw [hg] at he
        simp at he
        subst he
        rcases exists_concat_of_getLast? a.data sepC hg with ⟨xs, hxs⟩
        rw [comps_eq, comps_eq, comps_eq, String.data_append, hxs]
        rw [show xs ++ [sepC] ++ b.data = xs ++ sepC :: b.data by simp]
        rw [show xs ++ [sepC] = xs ++ sepC :: ([] : List Char) by simp]
        rw [splitChar_sep, splitChar_sep]
        simp [List.filter_append, splitChar]
  · rw [if_neg he]
    rw [comps_eq, comps_eq, comps_eq]
    rw [String.data_append, String.data_append]
    rw [show sepS.data = [sepC] from rfl]
    rw [List.append_assoc, List.singleton_append, splitChar_sep]
    simp [List.filter_append]

theorem commonPrefixLen_self_append :
    ∀ ss r : List String, commonPrefixLen ss (ss ++ r) = ss.length
  | [], r => by cases r <;> rfl
  | a :: as, r => by
    simp [commonPrefixLen, commonPrefixLen_self_append as r]

theorem relpath_append (p s : String) (parts : List String)
    (h : comps p = comps s ++ parts) (hne : parts ≠ []) :
    relpath p s = strJoin sepS parts := by
  cases parts with
  | nil => exact absurd rfl hne
  | cons q qs =>
    have h2 : relpath p s =
        match List.replicate ((comps s).length - commonPrefixLen (comps s) (comps p)) ".."
          ++ (comps p).drop (commonPrefixLen (comps s) (comps p)) with
        | [] => "."
        | rel => strJoin sepS rel := rfl
    rw [h2, h, commonPrefixLen_self_append, Nat.sub_self, List.drop_left]
    rfl

theorem pkgName_eq (s p : String) (parts : List String)
    (h : comps p = comps s ++ parts) (hne : parts ≠ [])
    (hsep : ∀ x ∈ parts, sepC ∉ x.data) :
    pkgName s p = strJoin "." parts := by
  unfold pkgName
  rw [relpath_append p s parts h hne, pySplit_strJoin parts hne hsep]

theorem comps_top (src : String) :
    comps (pathJoin src "indigo-stubs") = comps src ++ ["indigo-stubs"] := by
  rw [comps_pathJoin src "indigo-stubs" (by decide)]
  rw [comps_single "indigo-stubs" (by decide) (by decide) (by decide)]

theorem pkgName_top (src : String) :
    pkgName src (pathJoin src "indigo-stubs") = "indigo-stubs" :=
  (pkgName_eq src (pathJoin src "indigo-stubs") ["indigo-stubs"] (comps_top src)
    (by simp) (by intro x hx; rw [List.mem_singleton] at hx; subst hx; decide)).trans rfl

theorem strAppend_assoc (x y z : String) : x ++ y ++ z = x ++ (y ++ z) :=
  strExt (by simp [String.data_append])

theorem pySplit_sep_append (u v : String) :
    pySplit sepC (u ++ sepS ++ v) = pySplit sepC u ++ pySplit sepC v := by
  unfold pySplit
  rw [show (u ++ sepS ++ v).data = u.data ++ sepC :: v.data by
    rw [String.data_append, String.data_append]
    rw [show sepS.data = [sepC] from rfl]
    simp]
  rw [splitChar_sep, List.map_append]

theorem pySplit_no_sep (s : String) (h : sepC ∉ s.data) : pySplit sepC s = [s] := by
  unfold pySplit
  rw [splitChar_eq_of_not_mem sepC s.data h]
  rfl

theorem walkList_length (top : String) : ∀ cs, (walkList top cs).length = countDirs cs
  | [] => by simp [walkList, countDirs]
  | Dir.mk n cs :: ds => by
    have ih1 := walkList_length (pathJoin top n) cs
    have ih2 := walkList_length top ds
    simp [walkList, countDirs, ih1, ih2]
    omega

theorem list_packages_cons (src : String) (cs : List Dir) :
    list_packages src (some cs)
      = pkgName src (pathJoin src "indigo-stubs")
          :: (walkList (pathJoin src "indigo-stubs") cs).map (pkgName src) := rfl

/-! Claim theorems. -/

/-- Claim C1: for every directory visited by the walk whose path relative to
`src_path` is "indigo-stubs/a/b" (two components `a` and `b` below the root,
joined by the platform separator), `list_packages` emits for it exactly the
dotted string "indigo-stubs.a.b": the relative path is split on the platform
separator and the components are rejoined with ".". -/
theorem claim1_naming (src a b root : String) (fs : Option (List Dir))
    (_hmem : root ∈ visited src fs)
    (ha : sepC ∉ a.data) (hb : sepC ∉ b.data)
    (hrel : relpath root src = "indigo-stubs" ++ sepS ++ a ++ sepS ++ b) :
    pkgName src root = "indigo-stubs" ++ "." ++ a ++ "." ++ b := by
  unfold pkgName
  rw [hrel, pySplit_sep_append, pySplit_sep_append,
    pySplit_no_sep "indigo-stubs" (by decide), pySplit_no_sep a ha, pySplit_no_sep b hb]
  show "indigo-stubs" ++ "." ++ (a ++ "." ++ b) = "indigo-stubs" ++ "." ++ a ++ "." ++ b
  rw [strAppend_assoc ("indigo-stubs" ++ "." ++ a) "." b,
    strAppend_assoc ("indigo-stubs" ++ ".") a ("." ++ b),
    strAppend_assoc a "." b]

/-- Witness for C1 at the concrete tree indigo-stubs/a/b with `src_path` the
empty default. -/
theorem claim1_naming_witness :
    "indigo-stubs/a/b" ∈ visited "" (some [Dir.mk "a" [Dir.mk "b" []]]) ∧
    relpath "indigo-stubs/a/b" "" = "indigo-stubs" ++ sepS ++ "a" ++ sepS ++ "b" ∧
    pkgName "" "indigo-stubs/a/b" = "indigo-stubs" ++ "." ++ "a" ++ "." ++ "b" :=
  ⟨by simp only [visited, walkRoots, walkList]; decide, by decide,
    claim1_naming "" "a" "b" "indigo-stubs/a/b" (some [Dir.mk "a" [Dir.mk "b" []]])
      (by simp only [visited, walkRoots, walkList]; decide) (by decide) (by decide) (by decide)⟩

/-- Claim C2: when no "indigo-stubs" directory exists under the given root,
`list_packages` returns the empty sequence (and, being a total function of
the model, raises no error). -/
theorem claim2_empty_root (src : String) : list_packages src none = [] := rfl

/-- Claim C3: for a tree consisting of the "indigo-stubs" root plus `N`
nested subdirectories (files ignored), `list_packages` returns exactly
`N + 1` strings: one per directory encountered, with no deduplication,
filtering, or sorting. -/
theorem claim3_count (src : String) (cs : List Dir) :
    (list_packages src (some cs)).length = countDirs cs + 1 := by
  rw [list_packages_cons, List.length_cons, List.length_map, walkList_length]

/-- Claim C4: whenever the "indigo-stubs" directory exists, the root
directory itself yields exactly the string "indigo-stubs" — no leading or
trailing separator artifacts — for every `src_path`, the empty default
included, and that string is among the emitted packages. -/
theorem claim4_root_name (src : String) (cs : List Dir) :
    pkgName src (pathJoin src "indigo-stubs") = "indigo-stubs" ∧
    "indigo-stubs" ∈ list_packages src (some cs) := by
  constructor
  · exact pkgName_top src
  · rw [list_packages_cons, pkgName_top]
    exact List.mem_cons_self _ _

/-- Claim C5: on the concrete tree indigo-stubs/, indigo-stubs/foo/,
indigo-stubs/foo/bar/ the discovery yields exactly the three strings
"indigo-stubs", "indigo-stubs.foo", "indigo-stubs.foo.bar" (here even in
this exact traversal order, which subsumes the set-equality reading). -/
theorem claim5_concrete :
    list_packages "" (some [Dir.mk "foo" [Dir.mk "bar" []]])
      = ["indigo-stubs", "indigo-stubs.foo", "indigo-stubs.foo.bar"] := by
  simp only [list_packages, visited, walkRoots, walkList]
  decide

/-- Claim C6: the record passed to the distribution declaration carries the
fixed literals name="indigo-stubs", version="3.0.0", the literal url,
author, author email and description, an empty install_requires list, and a
package_data mapping whose single key "" (the setuptools convention for
"every discovered package") carries the pattern "*.pyi"; only the
`packages` field depends on the filesystem. -/
theorem claim6_static_metadata (fs : Option (List Dir)) :
    (setupCall fs).name = "indigo-stubs" ∧
    (setupCall fs).version = "3.0.0" ∧
    (setupCall fs).url = "https://github.com/mypackage.git" ∧
    (setupCall fs).author = "Author Name" ∧
    (setupCall fs).author_email = "author@gmail.com" ∧
    (setupCall fs).description = "Description of my package" ∧
    (setupCall fs).install_requires = [] ∧
    (setupCall fs).package_data = [("", ["*.pyi"])] ∧
    (setupCall fs).packages = list_packages "" fs :=
  ⟨rfl, rfl, rfl, rfl, rfl, rfl, rfl, rfl, rfl⟩

/-- Claim C7: when the underlying filesystem-walk primitive fails, the
failure propagates through `list_packages` as-is — the very same error
value, of an arbitrary error type, is surfaced unchanged, with no catch,
wrap, translation, retry or recovery. -/
theorem claim7_error_propagation (ε : Type) (e : ε) (src : String) :
    list_packagesExc src (Except.error e) = Except.error e := rfl

/-- Sanity check tying the exception-aware view to the plain one: on a
successful walk the two agree. -/
theorem list_packagesExc_ok (src : String) (fs : Option (List Dir)) :
    @list_packagesExc String src (Except.ok (visited src fs))
      = Except.ok (list_packages src fs) := rfl

theorem startsWithSep_eq_false (s : String) (h : sepC ∉ s.data) :
    startsWithSep s = false := by
  unfold startsWithSep
  cases hd : s.data with
  | nil => rfl
  | cons c cs =>
    have hm : c ∈ s.data := hd ▸ List.mem_cons_self c cs
    have hc : ¬(c = sepC) := fun e => h (e ▸ hm)
    simp [hc]

theorem walkList_comps (src : String) :
    ∀ (cs : List Dir) (top : String) (rest0 : List String),
      sepFreeDirs cs = true →
      comps top = comps src ++ "indigo-stubs" :: rest0 →
      ∀ p ∈ walkList top cs, ∃ rest, comps p = comps src ++ "indigo-stubs" :: rest
  | [], _, _, _, _, p, hp => by simp [walkList] at hp
  | Dir.mk n cs :: ds, top, rest0, hsf, htop, p, hp => by
    have hsf3 : (sepC ∉ n.data ∧ sepFreeDirs cs = true) ∧ sepFreeDirs ds = true := by
      simpa [sepFreeDirs, Bool.and_eq_true] using hsf
    have hn : sepC ∉ n.data := hsf3.1.1
    have hj : comps (pathJoin top n) = comps top ++ comps n :=
      comps_pathJoin top n (startsWithSep_eq_false n hn)
    have hj2 : comps (pathJoin top n)
        = comps src ++ "indigo-stubs" :: (rest0 ++ comps n) := by
      rw [hj, htop]; simp
    simp only [walkList] at hp
    rcases List.mem_append.mp hp with hp | hp
    · rcases List.mem_cons.mp hp with hp | hp
      · subst hp; exact ⟨rest0 ++ comps n, hj2⟩
      · exact walkList_comps src cs (pathJoin top n) (rest0 ++ comps n) hsf3.1.2 hj2 p hp
    · exact walkList_comps src ds top rest0 hsf3.2 htop p hp

/-- Claim C8: with the "indigo-stubs" directory present and `src_path` the
empty default, every emitted string either equals "indigo-stubs" or begins
with the prefix "indigo-stubs.", and contains no platform path-separator
character.  The hypothesis `sepFreeDirs` states that no entry name contains
the separator, which is true of every real directory tree. -/
theorem claim8_shape (cs : List Dir) (s : String)
    (hsf : sepFreeDirs cs = true)
    (hs : s ∈ list_packages "" (some cs)) :
    (s = "indigo-stubs" ∨ ∃ t, s = "indigo-stubs." ++ t) ∧ sepC ∉ s.data := by
  rcases List.mem_map.mp hs with ⟨p, hp, he⟩
  subst he
  have hp2 : p ∈ pathJoin "" "indigo-stubs"
      :: walkList (pathJoin "" "indigo-stubs") cs := hp
  have hcomps : ∃ rest, comps p = comps "" ++ "indigo-stubs" :: rest := by
    rcases List.mem_cons.mp hp2 with hp3 | hp3
    · subst hp3; exact ⟨[], by rw [comps_top]⟩
    · exact walkList_comps "" cs (pathJoin "" "indigo-stubs") [] hsf
        (by rw [comps_top]) p hp3
  rcases hcomps with ⟨rest, hcp⟩
  have hsep : ∀ x ∈ "indigo-stubs" :: rest, sepC ∉ x.data := by
    intro x hx
    apply comps_sep_free p
    rw [hcp]
    exact List.mem_append_right _ hx
  have hpk : pkgName "" p = strJoin "." ("indigo-stubs" :: rest) :=
    pkgName_eq "" p ("indigo-stubs" :: rest) hcp (by simp) hsep
  rw [hpk]
  constructor
  · cases rest with
    | nil => exact Or.inl rfl
    | cons r t =>
      refine Or.inr ⟨strJoin "." (r :: t), ?_⟩
      show "indigo-stubs" ++ "." ++ strJoin "." (r :: t)
        = "indigo-stubs." ++ strJoin "." (r :: t)
      rw [show ("indigo-stubs" ++ "." : String) = "indigo-stubs." from by decide]
  · rw [strJoin_data]
    rw [show ("." : String).data = ['.'] from rfl]
    refine not_mem_joinWith sepC '.' _ (by decide) ?_
    intro pl hpl
    rcases List.mem_map.mp hpl with ⟨x, hx, he2⟩
    exact he2 ▸ hsep x hx

/-- Witness for C8 at a one-subdirectory tree. -/
theorem claim8_shape_witness :
    sepFreeDirs [Dir.mk "foo" []] = true ∧
    "indigo-stubs.foo" ∈ list_packages "" (some [Dir.mk "foo" []]) ∧
    (("indigo-stubs.foo" = "indigo-stubs" ∨ ∃ t, "indigo-stubs.foo" = "indigo-stubs." ++ t)
      ∧ sepC ∉ "indigo-stubs.foo".data) :=
  ⟨by simp only [sepFreeDirs]; decide,
    by simp only [list_packages, visited, walkRoots, walkList]; decide,
    claim8_shape [Dir.mk "foo" []] "indigo-stubs.foo" (by simp only [sepFreeDirs]; decide)
      (by simp only [list_packages, visited, walkRoots, walkList]; decide)⟩

/-- Claim C9: whenever the "indigo-stubs" directory exists, the emitted
sequence is nonempty and its first element is "indigo-stubs": the top-down
walk yields the root before any descendant. -/
theorem claim9_first_element (src : String) (cs : List Dir) :
    (list_packages src (some cs)).head? = some "indigo-stubs" := by
  rw [list_packages_cons, pkgName_top]
  rfl

theorem plainDirs_cons (n : String) (cs ds : List Dir)
    (h : plainDirs (Dir.mk n cs :: ds) = true) :
    (((n ≠ "" ∧ sepC ∉ n.data) ∧ ('.' : Char) ∉ n.data) ∧ plainDirs cs = true)
      ∧ plainDirs ds = true := by
  simpa [plainDirs, Bool.and_eq_true] using h

theorem addrs_plain :
    ∀ cs, plainDirs cs = true → ∀ l ∈ addrs cs, ∀ x ∈ l,
      x ≠ "" ∧ sepC ∉ x.data ∧ ('.' : Char) ∉ x.data
  | [], _, l, hl, _, _ => by simp [addrs] at hl
  | Dir.mk n cs :: ds, h, l, hl, x, hx => by
    obtain ⟨⟨⟨⟨h1, h2⟩, h3⟩, h4⟩, h5⟩ := plainDirs_cons n cs ds h
    simp only [addrs] at hl
    rcases List.mem_cons.mp hl with hl | hl
    · subst hl
      rw [List.mem_singleton.mp hx]
      exact ⟨h1, h2, h3⟩
    · rcases List.mem_append.mp hl with hl | hl
      · rcases List.mem_map.mp hl with ⟨l2, hl2, he⟩
        subst he
        rcases List.mem_cons.mp hx with hx | hx
        · subst hx; exact ⟨h1, h2, h3⟩
        · exact addrs_plain cs h4 l2 hl2 x hx
      · exact addrs_plain ds h5 l hl x hx

theorem walkList_pkgNames (src : String) :
    ∀ (cs : List Dir) (top : String) (base : List String),
      plainDirs cs = true →
      comps top = comps src ++ base →
      base ≠ [] →
      (∀ x ∈ base, sepC ∉ x.data) →
      (walkList top cs).map (pkgName src)
        = (addrs cs).map (fun l => strJoin "." (base ++ l))
  | [], _, _, _, _, _, _ => by simp [walkList, addrs]
  | Dir.mk n cs :: ds, top, base, hpl, htop, hbne, hbsep => by
    obtain ⟨⟨⟨⟨h1, h2⟩, h3⟩, h4⟩, h5⟩ := plainDirs_cons n cs ds hpl
    have hdotn : n ≠ "." := fun e => h3 (by rw [e]; simp)
    have hcn : comps (pathJoin top n) = comps src ++ (base ++ [n]) := by
      rw [comps_pathJoin top n (startsWithSep_eq_false n h2),
        comps_single n h1 hdotn h2, htop, List.append_assoc]
    have hbsep2 : ∀ x ∈ base ++ [n], sepC ∉ x.data := by
      intro x hx
      rcases List.mem_append.mp hx with hx | hx
      · exact hbsep x hx
      · rw [List.mem_singleton.mp hx]; exact h2
    have hpkg : pkgName src (pathJoin top n) = strJoin "." (base ++ [n]) :=
      pkgName_eq src (pathJoin top n) (base ++ [n]) hcn (by simp) hbsep2
    have ih1 := walkList_pkgNames src cs (pathJoin top n) (base ++ [n]) h4 hcn
      (by simp) hbsep2
    have ih2 := walkList_pkgNames src ds top base h5 htop hbne hbsep
    simp only [walkList, addrs, List.map_append, List.map_cons, List.map_map,
      List.cons_append]
    rw [hpkg, ih1, ih2]
    congr 1
    congr 1
    apply List.map_congr_left
    intro l _
    simp [Function.comp, List.append_assoc]

theorem list_packages_addrs (src : String) (cs : List Dir)
    (hpl : plainDirs cs = true) :
    list_packages src (some cs)
      = ([] :: addrs cs).map (fun l => strJoin "." ("indigo-stubs" :: l)) := by
  rw [list_packages_cons, pkgName_top]
  rw [walkList_pkgNames src cs (pathJoin src "indigo-stubs") ["indigo-stubs"] hpl
    (comps_top src) (by simp) (by intro x hx; rw [List.mem_singleton.mp hx]; decide)]
  rfl

theorem strJoin_dot_split (parts : List String) (P c : String)
    (hne : parts ≠ []) (hdot : ∀ x ∈ parts, ('.' : Char) ∉ x.data)
    (h : strJoin "." parts = P ++ "." ++ c) :
    ∃ p1 p2, parts = p1 ++ p2 ∧ p1 ≠ [] ∧ p2 ≠ [] ∧ P = strJoin "." p1 := by
  have hmapne : parts.map String.data ≠ [] := by simpa using hne
  have hmapdot : ∀ pl ∈ parts.map String.data, ('.' : Char) ∉ pl := by
    intro pl hpl
    rcases List.mem_map.mp hpl with ⟨x, hx, he⟩
    exact he ▸ hdot x hx
  have hdata : joinWith ['.'] (parts.map String.data) = P.data ++ '.' :: c.data := by
    have h1 : (strJoin "." parts).data = joinWith ['.'] (parts.map String.data) :=
      strJoin_data "." parts
    have h2 : (P ++ "." ++ c).data = P.data ++ '.' :: c.data := by
      rw [String.data_append, String.data_append]
      simp
    rw [← h1, h, h2]
  have hsplit : parts.map String.data
      = splitChar '.' P.data ++ splitChar '.' c.data := by
    have e1 : splitChar '.' (joinWith ['.'] (parts.map String.data))
        = parts.map String.data :=
      splitChar_joinWith '.' (parts.map String.data) hmapne hmapdot
    rw [hdata, splitChar_sep] at e1
    exact e1.symm
  have hlen : parts.length
      = (splitChar '.' P.data).length + (splitChar '.' c.data).length := by
    have e2 := congrArg List.length hsplit
    simpa using e2
  have hP1 : 0 < (splitChar '.' P.data).length :=
    List.length_pos.mpr (splitChar_ne_nil '.' P.data)
  have hc1 : 0 < (splitChar '.' c.data).length :=
    List.length_pos.mpr (splitChar_ne_nil '.' c.data)
  refine ⟨parts.take (splitChar '.' P.data).length,
    parts.drop (splitChar '.' P.data).length,
    (List.take_append_drop _ parts).symm, ?_, ?_, ?_⟩
  · apply List.length_pos.mp
    rw [List.length_take]
    omega
  · apply List.length_pos.mp
    rw [List.length_drop]
    omega
  · apply strExt
    rw [strJoin_data]
    rw [show ("." : String).data = ['.'] from rfl]
    rw [List.map_take, hsplit, List.take_left]
    exact (joinWith_splitChar '.' P.data).symm

theorem addrs_ancestor :
    ∀ (cs : List Dir) (i : Nat) (l l1 t : List String),
      (addrs cs)[i]? = some l → l = l1 ++ t → l1 ≠ [] → t ≠ [] →
      ∃ j, j < i ∧ (addrs cs)[j]? = some l1
  | [], i, l, l1, t, hA, _, _, _ => by simp [addrs] at hA
  | Dir.mk n cs :: ds, i, l, l1, t, hA, hsplit, hl1, ht => by
    simp only [addrs] at hA ⊢
    cases i with
    | zero =>
      rw [List.getElem?_cons_zero] at hA
      have hl : [n] = l1 ++ t := by rw [Option.some.inj hA, hsplit]
      have hlen := congrArg List.length hl
      have e1 := List.length_pos.mpr hl1
      have e2 := List.length_pos.mpr ht
      simp at hlen
      omega
    | succ i2 =>
      rw [List.getElem?_cons_succ] at hA
      by_cases hi : i2 < ((addrs cs).map (n :: ·)).length
      · rw [List.getElem?_append, if_pos hi] at hA
        rw [List.getElem?_map] at hA
        cases hA2 : (addrs cs)[i2]? with
        | none => rw [hA2] at hA; simp at hA
        | some l2 =>
          rw [hA2] at hA
          have hl : n :: l2 = l := Option.some.inj hA
          cases l1 with
          | nil => exact absurd rfl hl1
          | cons a l1t =>
            rw [← hl, List.cons_append] at hsplit
            injection hsplit with han hrest
            cases l1t with
            | nil =>
              refine ⟨0, Nat.succ_pos i2, ?_⟩
              rw [List.getElem?_cons_zero, han]
            | cons b l1tt =>
              rcases addrs_ancestor cs i2 l2 (b :: l1tt) t hA2 hrest (by simp) ht
                with ⟨j2, hj2, hAj⟩
              refine ⟨j2 + 1, by omega, ?_⟩
              rw [List.getElem?_cons_succ, List.getElem?_append,
                if_pos (by omega), List.getElem?_map, hAj, han]
              rfl
      · rw [List.getElem?_append, if_neg hi] at hA
        rcases addrs_ancestor ds (i2 - ((addrs cs).map (n :: ·)).length) l l1 t hA
          hsplit hl1 ht with ⟨j3, hj3, hAj⟩
        have hbound : i2 ≥ ((addrs cs).map (n :: ·)).length := by omega
        refine ⟨((addrs cs).map (n :: ·)).length + j3 + 1, by omega, ?_⟩
        rw [List.getElem?_cons_succ, List.getElem?_append, if_neg (by omega)]
        rw [show ((addrs cs).map (n :: ·)).length + j3
          - ((addrs cs).map (n :: ·)).length = j3 by omega]
        exact hAj

/-- Counterexample to C10 as stated: a real directory name may itself
contain the character ".".  With the tree indigo-stubs/a.b/ the emitted
sequence is ["indigo-stubs", "indigo-stubs.a.b"]; its second element has
the form P ++ "." ++ c with P = "indigo-stubs.a" and c = "b", yet the
string "indigo-stubs.a" occurs nowhere in the sequence, in particular not
at any earlier position. -/
theorem claim10_counterexample :
    list_packages "" (some [Dir.mk "a.b" []])
      = ["indigo-stubs", "indigo-stubs.a" ++ "." ++ "b"] ∧
    "indigo-stubs.a" ∉ list_packages "" (some [Dir.mk "a.b" []]) := by
  constructor <;> (simp only [list_packages, visited, walkRoots, walkList]; decide)

/-- Claim C10 (amended): provided every directory name is a plain
component — nonempty, free of the separator and free of the character "."
— a subdirectory's dotted name never appears before its parent's in the
emitted sequence: whenever the element at position `i` has the form
P ++ "." ++ c, the name P itself occurs at an earlier position `j < i`. -/
theorem claim10_amended (src : String) (cs : List Dir) (i : Nat) (P c : String)
    (hplain : plainDirs cs = true)
    (hi : (list_packages src (some cs))[i]? = some (P ++ "." ++ c)) :
    ∃ j, j < i ∧ (list_packages src (some cs))[j]? = some P := by
  rw [list_packages_addrs src cs hplain] at hi ⊢
  rw [List.getElem?_map] at hi
  cases hA : ([] :: addrs cs)[i]? with
  | none => rw [hA] at hi; simp at hi
  | some l =>
    rw [hA] at hi
    have hi2 : strJoin "." ("indigo-stubs" :: l) = P ++ "." ++ c :=
      Option.some.inj hi
    have hdot : ∀ x ∈ ("indigo-stubs" :: l), ('.' : Char) ∉ x.data := by
      intro x hx
      rcases List.mem_cons.mp hx with hx | hx
      · subst hx; decide
      · cases i with
        | zero =>
          rw [List.getElem?_cons_zero] at hA
          rw [← Option.some.inj hA] at hx
          simp at hx
        | succ i2 =>
          rw [List.getElem?_cons_succ] at hA
          exact (addrs_plain cs hplain l (List.getElem?_mem hA) x hx).2.2
    rcases strJoin_dot_split ("indigo-stubs" :: l) P c (by simp) hdot hi2
      with ⟨p1, p2, hsplit, hp1, hp2, hP⟩
    cases p1 with
    | nil => exact absurd rfl hp1
    | cons a l1 =>
      rw [List.cons_append] at hsplit
      injection hsplit with ha hl
      cases l1 with
      | nil =>
        cases i with
        | zero =>
          rw [List.getElem?_cons_zero] at hA
          rw [← Option.some.inj hA] at hl
          simp at hl
          exact absurd hl hp2
        | succ i2 =>
          refine ⟨0, Nat.succ_pos i2, ?_⟩
          rw [List.getElem?_map, List.getElem?_cons_zero]
          rw [hP, ha]
          rfl
      | cons b l1t =>
        cases i with
        | zero =>
          rw [List.getElem?_cons_zero] at hA
          rw [← Option.some.inj hA] at hl
          simp at hl
        | succ i2 =>
          rw [List.getElem?_cons_succ] at hA
          rcases addrs_ancestor cs i2 l (b :: l1t) p2 hA hl (by simp) hp2
            with ⟨j2, hj2, hAj⟩
          refine ⟨j2 + 1, by omega, ?_⟩
          rw [List.getElem?_map, List.getElem?_cons_succ, hAj]
          rw [hP, ha]
          rfl

/-- Witness for the amended C10 at the tree indigo-stubs/foo/bar/. -/
theorem claim10_amended_witness :
    plainDirs [Dir.mk "foo" [Dir.mk "bar" []]] = true ∧
    (list_packages "" (some [Dir.mk "foo" [Dir.mk "bar" []]]))[2]?
      = some ("indigo-stubs.foo" ++ "." ++ "bar") ∧
    ∃ j, j < 2 ∧ (list_packages "" (some [Dir.mk "foo" [Dir.mk "bar" []]]))[j]?
      = some "indigo-stubs.foo" :=
  ⟨by simp only [plainDirs]; decide,
    by simp only [list_packages, visited, walkRoots, walkList]; decide,
    claim10_amended "" [Dir.mk "foo" [Dir.mk "bar" []]] 2 "indigo-stubs.foo" "bar"
      (by simp only [plainDirs]; decide)
      (by simp only [list_packages, visited, walkRoots, walkList]; decide)⟩

end SetupPy
